import Mathlib

/-!
Verification of the Vocadian voice-activity-detection pipeline
(`classification.py`): segmentation, feature smoothing, rule-based
classification, and the numeric range facts about the extracted features.

Numeric values flowing through the pipeline are modelled as exact rationals
(`ℚ`); the spectral-flatness fact, which involves `exp`/`log`, is modelled
over the reals (`ℝ`).  External numeric kernels (librosa's loader, scipy's
`filtfilt`, the FFT, parselmouth's pitch tracker) are inputs of the
embedded functions: the loaded sample buffer, the magnitude spectrum and
the per-frame pitch track are passed in, and the filtering kernel is a
function parameter.
-/

namespace Vocadian

/-! ### Thresholds (module-level constants of classification.py) -/

/-- Minimum spectral energy required (filters out silence/very quiet noise). -/
def ENERGY_THRESHOLD : ℚ := 100

/-- Valid fundamental frequency range for human speech (Hz). -/
def PITCH_RANGE : ℚ × ℚ := (75, 500)

/-- Maximum spectral flatness for voice. -/
def FLATNESS_THRESHOLD : ℚ := 0.4

/-- Minimum voicing probability. -/
def VOICING_PROB_THRESHOLD : ℚ := 0.25

/-- Minimum log voice band energy ratio. -/
def VB_RATIO_THRESHOLD : ℚ := -0.35

/-! ### Data model -/

/-- The feature record produced by `extract_features`: a dict with five
scalar entries, one per acoustic feature. -/
structure Features where
  total_energy : ℚ
  spectral_flatness : ℚ
  pitch : ℚ
  voicing_prob : ℚ
  voice_band_ratio : ℚ
deriving DecidableEq, Repr

/-- The classification label: the strings "voice" / "noise" of the script. -/
inductive Label where
  | voice : Label
  | noise : Label
deriving DecidableEq, Repr

/-- One record of the exported results.json array (`export_results`). -/
structure ClassificationResult where
  start_time : ℕ
  end_time : ℕ
  label : Label
deriving DecidableEq, Repr

/-- np.mean of a list: sum divided by length. -/
def listMean {K : Type} [DivisionRing K] (l : List K) : K := l.sum / l.length

/-! ### Segmenter (`segment_audio`, classification.py lines 28-36) -/

/-- `segment_audio`, with the loaded sample buffer `y` passed in
(librosa.load is the external loader).  `sr` is the window length in
samples (segment_length = sr) and `min_partial_sec` the tail fraction.
A Python slice y[a:b] is take b followed by drop a. -/
def segment_audio (y : List ℚ) (sr : ℕ) (min_partial_sec : ℚ) : List (List ℚ) :=
  let segment_length := sr
  let total_segments := y.length / segment_length
  let segments_raw := (List.range total_segments).map
      (fun i => (y.take ((i + 1) * segment_length)).drop (i * segment_length))
  let remainder := y.drop (total_segments * segment_length)
  if min_partial_sec * (segment_length : ℚ) < (remainder.length : ℚ) then
    segments_raw ++ [remainder]
  else segments_raw

/-! ### Smoother (`smooth_feature`, classification.py lines 69-74) -/

/-- `smooth_feature`: centered moving average.  The Python loop appends
np.mean of the slice values[max(0, i - w//2) : min(len(values), i + w//2 + 1)]
for each index i; truncated Nat subtraction renders max(0, i - w//2). -/
def smooth_feature (values : List ℚ) (window_size : ℕ) : List ℚ :=
  (List.range values.length).map (fun i =>
    listMean ((values.take (min values.length (i + window_size / 2 + 1))).drop
      (i - window_size / 2)))

/-! ### Classifier (`classify_segment`, classification.py lines 106-120) -/

/-- The score accumulated by `classify_segment` after the energy gate:
each `if` of the Python body adds its weight to the running score. -/
def score (f : Features) : ℤ :=
  (if f.spectral_flatness < FLATNESS_THRESHOLD then 2 else 0)
  + (if PITCH_RANGE.1 ≤ f.pitch ∧ f.pitch ≤ PITCH_RANGE.2 then 1 else 0)
  + (if VOICING_PROB_THRESHOLD < f.voicing_prob then 1 else 0)
  + (if VB_RATIO_THRESHOLD < f.voice_band_ratio then 2 else 0)

/-- `classify_segment`: energy gate, then the weighted scoring rule. -/
def classify_segment (f : Features) : Label :=
  if f.total_energy < ENERGY_THRESHOLD then Label.noise
  else if 4 ≤ score f then Label.voice else Label.noise

/-! ### Bandpass filter (`butter_bandpass_filter`, classification.py
lines 20-25) and its error behaviour -/

/-- Modelled from the spec: the filter-design step invoked inside
`butter_bandpass_filter` — the external scipy call
butter(order, [low, high], btype=band) — accepts exactly normalized
critical frequencies with 0 < low < high < 1 (equivalently, cutoffs with
0 < lowcut < highcut < sampleRate/2) and raises an error otherwise.  The
repository code performs no cutoff validation of its own. -/
def butter (low high : ℚ) : Except String Unit :=
  if 0 < low ∧ low < high ∧ high < 1 then Except.ok ()
  else Except.error "Digital filter critical frequencies must be 0 < Wn < 1"

/-- `butter_bandpass_filter`: normalizes the cutoffs by the Nyquist
frequency, designs the filter (where any invalid-cutoff error surfaces,
on every call), then runs the forward-backward filter.  The numeric kernel
`filtfilt` is external and passed as a function parameter. -/
def butter_bandpass_filter (filtfilt : List ℚ → List ℚ) (data : List ℚ)
    (lowcut highcut sr : ℚ) : Except String (List ℚ) :=
  let nyquist := 0.5 * sr
  let low := lowcut / nyquist
  let high := highcut / nyquist
  match butter low high with
  | Except.ok _ => Except.ok (filtfilt data)
  | Except.error e => Except.error e

/-- Everything the script does before the first per-segment filtering call:
the repository has no construction-time validation of the bandpass cutoffs
(the module merely defines constants and functions), so "construction"
always succeeds, carrying the configured cutoffs forward unchecked. -/
def pipeline_construction (lowcut highcut sr : ℚ) : Except String (ℚ × ℚ × ℚ) :=
  Except.ok (lowcut, highcut, sr)

/-! ### Pitch features (`extract_parselmouth_features`, classification.py
lines 39-47) -/

/-- `extract_parselmouth_features`, with the per-frame pitch track
(parselmouth's selected_array frequencies: one value per analysis frame,
0 for unvoiced frames) passed in as input.  np.any(pitches > 0) is the
voiced sublist being nonempty; np.sum over the boolean voiced-frame mask
is the count of frames with pitch > 0. -/
def extract_parselmouth_features (pitches : List ℚ) : ℚ × ℚ :=
  let voiced := pitches.filter (fun p => decide (0 < p))
  let avg_pitch := if voiced ≠ [] then listMean voiced else 0
  let voicing_prob := (pitches.countP (fun p => decide (0 < p)) : ℚ) / (pitches.length : ℚ)
  (avg_pitch, voicing_prob)

/-! ### Spectral flatness (`extract_features`, classification.py
lines 84-88) -/

/-- The spectral-flatness computation of `extract_features`, with the raw
magnitude spectrum |rfft(segment)| passed in as input:
exp(mean(log(mag + 1e-10))) / mean(mag + 1e-10). -/
noncomputable def spectral_flatness (raw_fft_mag : List ℝ) : ℝ :=
  let geometric_mean := Real.exp (listMean (raw_fft_mag.map (fun x => Real.log (x + 1e-10))))
  let arithmetic_mean := listMean (raw_fft_mag.map (fun x => x + 1e-10))
  geometric_mean / arithmetic_mean

/-! ### Pipeline (`__main__` block of classification.py, minus I/O) -/

/-- `export_results` (classification.py lines 162-165), minus the file
write: the list of records it serializes. -/
def export_results (labels : List Label) : List ClassificationResult :=
  (List.range labels.length).map (fun i =>
    { start_time := i, end_time := i + 1, label := labels.getD i Label.noise })

/-- The `__main__` pipeline: segment, extract features per segment (the
feature extractor over one segment's samples is passed in as a function,
since it wraps the external FFT and pitch-tracking kernels), smooth each
feature channel, classify the re-assembled smoothed vectors, and build the
exported records. -/
def run_pipeline (extract : List ℚ → Features) (y : List ℚ) (sr : ℕ)
    (min_partial_sec : ℚ) : List ClassificationResult :=
  let segments_raw := segment_audio y sr min_partial_sec
  let feats := segments_raw.map extract
  let sm_energies := smooth_feature (feats.map Features.total_energy) 3
  let sm_flatnesses := smooth_feature (feats.map Features.spectral_flatness) 3
  let sm_pitches := smooth_feature (feats.map Features.pitch) 3
  let sm_voicing_probs := smooth_feature (feats.map Features.voicing_prob) 3
  let sm_vb_ratios := smooth_feature (feats.map Features.voice_band_ratio) 3
  let smoothed_labels := (List.range sm_energies.length).map (fun i =>
    classify_segment
      { total_energy := sm_energies.getD i 0
        spectral_flatness := sm_flatnesses.getD i 0
        pitch := sm_pitches.getD i 0
        voicing_prob := sm_voicing_probs.getD i 0
        voice_band_ratio := sm_vb_ratios.getD i 0 })
  export_results smoothed_labels

/-! ### Helper lemmas -/

/-- A list's sum as a Finset.range sum of its entries. -/
theorem list_sum_eq_range_sum {M : Type} [AddCommMonoid M] (l : List M) :
    l.sum = ∑ i ∈ Finset.range l.length, l.getD i 0 := by
  induction l with
  | nil => simp
  | cons a tl ih =>
      simp [Finset.sum_range_succ', ih, add_comm]

/-- Length of the Python slice l[a:b] when b ≤ len(l). -/
theorem slice_length {K : Type} (l : List K) (a b : ℕ) (hb : b ≤ l.length) :
    ((l.take b).drop a).length = b - a := by
  simp only [List.length_drop, List.length_take]
  omega

/-- Entries of the Python slice l[a:b]. -/
theorem slice_getD {K : Type} (l : List K) (a b k : ℕ) (d : K)
    (hb : b ≤ l.length) (hk : k < b - a) :
    ((l.take b).drop a).getD k d = l.getD (a + k) d := by
  have h1 : k < ((l.take b).drop a).length := by rw [slice_length l a b hb]; exact hk
  have h2 : a + k < l.length := by omega
  rw [List.getD_eq_getElem _ _ h1, List.getD_eq_getElem _ _ h2]
  simp

/-! ### Claims -/

/-- Claim C2: the classifier returns Noise whenever energy < 100 regardless of
the other fields; otherwise it scores +2 for spectralFlatness < 0.4, +1 for
pitchHz in [75, 500], +1 for voicingProbability > 0.25, +2 for
voiceBandRatio > -0.35, and returns Voice iff the score is at least 4. -/
theorem C2_classifier_rule (f : Features) :
    classify_segment f =
      if f.total_energy < 100 then Label.noise
      else if 4 ≤ (if f.spectral_flatness < 0.4 then (2 : ℤ) else 0)
                + (if 75 ≤ f.pitch ∧ f.pitch ≤ 500 then 1 else 0)
                + (if 0.25 < f.voicing_prob then 1 else 0)
                + (if -0.35 < f.voice_band_ratio then 2 else 0)
           then Label.voice else Label.noise := by
  unfold classify_segment score ENERGY_THRESHOLD FLATNESS_THRESHOLD PITCH_RANGE
    VOICING_PROB_THRESHOLD VB_RATIO_THRESHOLD
  dsimp only

/-- Claim C8: with all other fields fixed, a strictly smaller spectral
flatness can only keep or raise the classifier score. -/
theorem C8_flatness_monotone (f g : Features)
    (_he : f.total_energy = g.total_energy) (hp : f.pitch = g.pitch)
    (hv : f.voicing_prob = g.voicing_prob)
    (hb : f.voice_band_ratio = g.voice_band_ratio)
    (hlt : f.spectral_flatness < g.spectral_flatness) :
    score g ≤ score f := by
  unfold score
  rw [hp, hv, hb]
  have hmono : (if g.spectral_flatness < FLATNESS_THRESHOLD then (2 : ℤ) else 0)
      ≤ (if f.spectral_flatness < FLATNESS_THRESHOLD then (2 : ℤ) else 0) := by
    split_ifs with h1 h2 <;> try omega
    exact absurd (lt_trans hlt h1) h2
  split_ifs at hmono ⊢ <;> omega

/-- Witness for C8 at concrete feature vectors. -/
theorem C8_flatness_monotone_witness :
    score { total_energy := 200, spectral_flatness := 0.9, pitch := 100,
            voicing_prob := 0.5, voice_band_ratio := 0 }
      ≤ score { total_energy := 200, spectral_flatness := 0.1, pitch := 100,
                voicing_prob := 0.5, voice_band_ratio := 0 } :=
  C8_flatness_monotone
    { total_energy := 200, spectral_flatness := 0.1, pitch := 100,
      voicing_prob := 0.5, voice_band_ratio := 0 }
    { total_energy := 200, spectral_flatness := 0.9, pitch := 100,
      voicing_prob := 0.5, voice_band_ratio := 0 }
    rfl rfl rfl rfl (by norm_num)

/-- Claim C10: once the energy gate passes (both energies at or above the
threshold), the energy value has no further influence: two feature vectors
agreeing on the four other fields get the same label. -/
theorem C10_energy_noninterference (f g : Features)
    (hf : ENERGY_THRESHOLD ≤ f.total_energy) (hg : ENERGY_THRESHOLD ≤ g.total_energy)
    (hs : f.spectral_flatness = g.spectral_flatness) (hp : f.pitch = g.pitch)
    (hv : f.voicing_prob = g.voicing_prob)
    (hb : f.voice_band_ratio = g.voice_band_ratio) :
    classify_segment f = classify_segment g := by
  have hscore : score f = score g := by
    unfold score
    rw [hs, hp, hv, hb]
  unfold classify_segment
  rw [if_neg (not_lt.mpr hf), if_neg (not_lt.mpr hg), hscore]

/-- Witness for C10 at concrete feature vectors. -/
theorem C10_energy_noninterference_witness :
    classify_segment { total_energy := 100, spectral_flatness := 0.1, pitch := 100,
                       voicing_prob := 0.5, voice_band_ratio := 0 }
      = classify_segment { total_energy := 5000, spectral_flatness := 0.1, pitch := 100,
                           voicing_prob := 0.5, voice_band_ratio := 0 } :=
  C10_energy_noninterference
    { total_energy := 100, spectral_flatness := 0.1, pitch := 100,
      voicing_prob := 0.5, voice_band_ratio := 0 }
    { total_energy := 5000, spectral_flatness := 0.1, pitch := 100,
      voicing_prob := 0.5, voice_band_ratio := 0 }
    (by norm_num [ENERGY_THRESHOLD]) (by norm_num [ENERGY_THRESHOLD])
    rfl rfl rfl rfl

/-- Claim C4: the smoother preserves length and order, and output[i] is the
arithmetic mean of the input entries at indices
[max(0, i - ⌊w/2⌋), min(L, i + ⌊w/2⌋ + 1)). -/
theorem C4_smoother_window (values : List ℚ) (w : ℕ) :
    (smooth_feature values w).length = values.length
    ∧ ∀ i, i < values.length →
        (smooth_feature values w).getD i 0
          = (∑ j ∈ Finset.Ico (i - w / 2) (min values.length (i + w / 2 + 1)),
                values.getD j 0)
            / ((min values.length (i + w / 2 + 1) - (i - w / 2) : ℕ) : ℚ) := by
  constructor
  · simp [smooth_feature]
  · intro i hi
    have hlen : i < (smooth_feature values w).length := by simpa [smooth_feature] using hi
    set a := i - w / 2 with ha
    set b := min values.length (i + w / 2 + 1) with hb
    have hble : b ≤ values.length := by omega
    have hout : (smooth_feature values w).getD i 0
        = listMean ((values.take b).drop a) := by
      rw [List.getD_eq_getElem _ _ hlen]
      simp [smooth_feature, ha, hb]
    rw [hout]
    unfold listMean
    rw [slice_length values a b hble]
    congr 1
    rw [list_sum_eq_range_sum, slice_length values a b hble,
      Finset.sum_Ico_eq_sum_range]
    refine Finset.sum_congr rfl ?_
    intro k hk
    rw [Finset.mem_range] at hk
    rw [slice_getD values a b k 0 hble hk]

/-- Witness for C4 at a concrete list, window size and index. -/
theorem C4_smoother_window_witness :
    (0 : ℕ) < ([3, 5, 10] : List ℚ).length
    ∧ (smooth_feature [3, 5, 10] 3).getD 0 0
        = (∑ j ∈ Finset.Ico (0 - 3 / 2 : ℕ) (min ([3, 5, 10] : List ℚ).length (0 + 3 / 2 + 1)),
              ([3, 5, 10] : List ℚ).getD j 0)
          / ((min ([3, 5, 10] : List ℚ).length (0 + 3 / 2 + 1) - (0 - 3 / 2 : ℕ) : ℕ) : ℚ) :=
  ⟨by norm_num, (C4_smoother_window [3, 5, 10] 3).2 0 (by norm_num)⟩

/-- Unfolded form of `segment_audio`. -/
theorem segment_audio_eq (y : List ℚ) (W : ℕ) (f : ℚ) :
    segment_audio y W f =
      if f * (W : ℚ) < ((y.drop (y.length / W * W)).length : ℚ) then
        ((List.range (y.length / W)).map
            (fun i => (y.take ((i + 1) * W)).drop (i * W)))
          ++ [y.drop (y.length / W * W)]
      else
        (List.range (y.length / W)).map
          (fun i => (y.take ((i + 1) * W)).drop (i * W)) := rfl

/-- Truncated-subtraction form of Nat.mod. -/
theorem sub_div_mul_eq_mod (N W : ℕ) : N - N / W * W = N % W := by
  have h : N / W * W + N % W = N := by
    rw [Nat.mul_comm]; exact Nat.div_add_mod N W
  omega

/-- Each full window slice of `segment_audio` has exactly W samples. -/
theorem full_slice_length (y : List ℚ) (W i : ℕ) (hi : i < y.length / W) :
    ((y.take ((i + 1) * W)).drop (i * W)).length = W := by
  have h1 : (i + 1) * W ≤ y.length :=
    le_trans (Nat.mul_le_mul_right W hi) (Nat.div_mul_le_self y.length W)
  rw [slice_length y (i * W) ((i + 1) * W) h1]
  have h2 : (i + 1) * W = i * W + W := by ring
  omega

/-- Indexing into the list of full window slices. -/
theorem full_slices_getD (y : List ℚ) (W i : ℕ) (hi : i < y.length / W) :
    ((List.range (y.length / W)).map
        (fun i => (y.take ((i + 1) * W)).drop (i * W))).getD i []
      = (y.take ((i + 1) * W)).drop (i * W) := by
  have h : i < ((List.range (y.length / W)).map
      (fun i => (y.take ((i + 1) * W)).drop (i * W))).length := by
    simpa using hi
  rw [List.getD_eq_getElem _ _ h]
  simp

/-- Concatenating the n full window slices reconstructs the first n·W
samples of the buffer. -/
theorem flatten_full_slices (y : List ℚ) (W : ℕ) :
    ∀ n, (((List.range n).map
        (fun i => (y.take ((i + 1) * W)).drop (i * W))).flatten)
      = y.take (n * W) := by
  intro n
  induction n with
  | zero => simp
  | succ m ih =>
      rw [List.range_succ, List.map_append, List.flatten_append, ih]
      simp only [List.map_cons, List.map_nil, List.flatten_cons, List.flatten_nil,
        List.append_nil]
      rw [List.drop_take]
      have h1 : (m + 1) * W - m * W = W := by
        have h2 : (m + 1) * W = m * W + W := by ring
        omega
      rw [h1, ← List.take_add]
      congr 1
      ring

/-- Claim C1: segmentation emits exactly ⌊N/W⌋ full windows of length W in
buffer order, plus the N mod W tail samples as one final partial segment
exactly when that remainder is strictly longer than f·W; concatenating the
emitted segments reconstructs the processed prefix of the buffer, so the
segments are contiguous, non-overlapping and in increasing start order. -/
theorem C1_segmentation (y : List ℚ) (W : ℕ) (f : ℚ) (hW : 0 < W) :
    ((segment_audio y W f).length
        = y.length / W + if f * (W : ℚ) < ((y.length % W : ℕ) : ℚ) then 1 else 0)
    ∧ (∀ i, i < y.length / W →
        (segment_audio y W f).getD i [] = (y.take ((i + 1) * W)).drop (i * W)
        ∧ ((segment_audio y W f).getD i []).length = W)
    ∧ (f * (W : ℚ) < ((y.length % W : ℕ) : ℚ) →
        (segment_audio y W f).getD (y.length / W) [] = y.drop (y.length / W * W)
        ∧ ((segment_audio y W f).getD (y.length / W) []).length = y.length % W)
    ∧ (segment_audio y W f).flatten
        = if f * (W : ℚ) < ((y.length % W : ℕ) : ℚ) then y
          else y.take (y.length / W * W) := by
  have _hW := hW
  have hrem : (y.drop (y.length / W * W)).length = y.length % W := by
    rw [List.length_drop]; exact sub_div_mul_eq_mod y.length W
  rw [segment_audio_eq, hrem]
  by_cases hc : f * (W : ℚ) < ((y.length % W : ℕ) : ℚ)
  · rw [if_pos hc, if_pos hc, if_pos hc]
    refine ⟨?_, ?_, ?_, ?_⟩
    · simp
    · intro i hi
      have hlt : i < ((List.range (y.length / W)).map
          (fun i => (y.take ((i + 1) * W)).drop (i * W))).length := by simpa using hi
      rw [List.getD_append _ _ _ _ hlt, full_slices_getD y W i hi]
      exact ⟨rfl, full_slice_length y W i hi⟩
    · intro _
      have hge : ((List.range (y.length / W)).map
          (fun i => (y.take ((i + 1) * W)).drop (i * W))).length ≤ y.length / W := by
        simp
      rw [List.getD_append_right _ _ _ _ hge]
      constructor
      · simp
      · simp [hrem]
    · rw [List.flatten_append, flatten_full_slices y W (y.length / W)]
      simp [List.take_append_drop]
  · rw [if_neg hc, if_neg hc, if_neg hc]
    refine ⟨?_, ?_, ?_, ?_⟩
    · simp
    · intro i hi
      rw [full_slices_getD y W i hi]
      exact ⟨rfl, full_slice_length y W i hi⟩
    · intro h
      exact absurd h hc
    · exact flatten_full_slices y W (y.length / W)

/-- Witness for C1 on a 5-sample buffer with 2-sample windows and tail
fraction 1/5 (remainder of 1 sample qualifies: 1 > 2/5). -/
theorem C1_segmentation_witness :
    (0 : ℕ) < 2
    ∧ (segment_audio [1, 2, 3, 4, 5] 2 (1 / 5)).length
        = ([1, 2, 3, 4, 5] : List ℚ).length / 2
          + if (1 / 5 : ℚ) * ((2 : ℕ) : ℚ)
                < ((([1, 2, 3, 4, 5] : List ℚ).length % 2 : ℕ) : ℚ) then 1 else 0 :=
  ⟨by norm_num, (C1_segmentation [1, 2, 3, 4, 5] 2 (1 / 5) (by norm_num)).1⟩

/-- Claim C9: a zero-length buffer is not an error: segmentation returns an
empty segment list, and the pipeline returns an empty result list. -/
theorem C9_empty_buffer (extract : List ℚ → Features) (sr : ℕ) (f : ℚ)
    (hf : 0 ≤ f) :
    segment_audio [] sr f = [] ∧ run_pipeline extract [] sr f = [] := by
  have hc : ¬ (f * (sr : ℚ)
      < ((([] : List ℚ).drop (([] : List ℚ).length / sr * sr)).length : ℚ)) := by
    simp only [List.drop_nil, List.length_nil, Nat.cast_zero]
    exact not_lt.mpr (mul_nonneg hf (by positivity))
  have hseg : segment_audio ([] : List ℚ) sr f = [] := by
    rw [segment_audio_eq, if_neg hc]
    simp
  refine ⟨hseg, ?_⟩
  simp [run_pipeline, hseg, smooth_feature, export_results]

/-- Witness for C9 with the default configuration values. -/
theorem C9_empty_buffer_witness :
    (0 : ℚ) ≤ 1 / 5
    ∧ segment_audio [] 16000 (1 / 5) = []
    ∧ run_pipeline (fun _ => ⟨0, 0, 0, 0, 0⟩) [] 16000 (1 / 5) = [] :=
  ⟨by norm_num,
    C9_empty_buffer (fun _ => ⟨0, 0, 0, 0, 0⟩) 16000 (1 / 5) (by norm_num)⟩

/-- Counterexample for C3: with invalid cutoffs lowcut = 1500 > highcut = 300
at sr = 16000, everything the script runs before per-segment processing
succeeds (the repository validates nothing at construction), while the
per-segment filtering call itself is the place the error surfaces — the
opposite of the claimed "fatal at construction, never during a per-segment
filtering call". -/
theorem C3_counterexample :
    pipeline_construction 1500 300 16000 = Except.ok (1500, 300, 16000)
    ∧ butter_bandpass_filter id [0] 1500 300 16000
        = Except.error "Digital filter critical frequencies must be 0 < Wn < 1" := by
  constructor
  · rfl
  · have hcond : ¬ ((0 : ℚ) < 1500 / (0.5 * 16000)
        ∧ (1500 : ℚ) / (0.5 * 16000) < 300 / (0.5 * 16000)
        ∧ (300 : ℚ) / (0.5 * 16000) < 1) := by norm_num
    simp only [butter_bandpass_filter, butter]
    rw [if_neg hcond]

/-- Claim C3 (amended): cutoffs violating 0 < low < high < sampleRate/2 are
not caught at construction — the script performs no validation before
processing — and the error instead surfaces inside each per-segment
filtering call: construction succeeds and `butter_bandpass_filter` returns
an error. -/
theorem C3_invalid_cutoffs_fail_per_call (filtfilt : List ℚ → List ℚ)
    (data : List ℚ) (lowcut highcut sr : ℚ) (hsr : 0 < sr)
    (hbad : ¬ (0 < lowcut ∧ lowcut < highcut ∧ highcut < sr / 2)) :
    pipeline_construction lowcut highcut sr = Except.ok (lowcut, highcut, sr)
    ∧ ∃ e, butter_bandpass_filter filtfilt data lowcut highcut sr
        = Except.error e := by
  have hny : (0 : ℚ) < 0.5 * sr := by positivity
  have hnyne : (0.5 * sr : ℚ) ≠ 0 := ne_of_gt hny
  refine ⟨rfl, ?_⟩
  have hcond : ¬ (0 < lowcut / (0.5 * sr)
      ∧ lowcut / (0.5 * sr) < highcut / (0.5 * sr)
      ∧ highcut / (0.5 * sr) < 1) := by
    rintro ⟨h1, h2, h3⟩
    apply hbad
    refine ⟨?_, ?_, ?_⟩
    · have h4 := mul_pos h1 hny
      rwa [div_mul_cancel₀ _ hnyne] at h4
    · have h4 := mul_lt_mul_of_pos_right h2 hny
      rwa [div_mul_cancel₀ _ hnyne, div_mul_cancel₀ _ hnyne] at h4
    · have h4 := mul_lt_mul_of_pos_right h3 hny
      rw [div_mul_cancel₀ _ hnyne, one_mul] at h4
      linarith
  refine ⟨"Digital filter critical frequencies must be 0 < Wn < 1", ?_⟩
  simp only [butter_bandpass_filter, butter]
  rw [if_neg hcond]

/-- Witness for the amended C3 at the concrete invalid cutoffs 1500/300. -/
theorem C3_invalid_cutoffs_fail_per_call_witness :
    (0 : ℚ) < 16000
    ∧ (¬ ((0 : ℚ) < 1500 ∧ (1500 : ℚ) < 300 ∧ (300 : ℚ) < 16000 / 2))
    ∧ (pipeline_construction 1500 300 16000 = Except.ok (1500, 300, 16000)
       ∧ ∃ e, butter_bandpass_filter id ([0] : List ℚ) 1500 300 16000
           = Except.error e) :=
  ⟨by norm_num, by norm_num,
    C3_invalid_cutoffs_fail_per_call id [0] 1500 300 16000 (by norm_num)
      (by norm_num)⟩

/-- Claim C7: voicingProbability lies in [0, 1] and is 0 iff no frame has a
nonzero detected pitch; pitchHz is the mean of the nonzero frame pitches, or
0 when no frame has nonzero pitch.  (Frame pitches are nonnegative:
parselmouth reports 0 for unvoiced frames and a positive frequency
otherwise.) -/
theorem C7_parselmouth_features (pitches : List ℚ)
    (hne : pitches ≠ []) (hnn : ∀ p ∈ pitches, 0 ≤ p) :
    (0 ≤ (extract_parselmouth_features pitches).2
      ∧ (extract_parselmouth_features pitches).2 ≤ 1)
    ∧ ((extract_parselmouth_features pitches).2 = 0 ↔ ∀ p ∈ pitches, p = 0)
    ∧ (extract_parselmouth_features pitches).1
        = (if pitches.filter (fun p => decide (p ≠ 0)) = [] then 0
           else listMean (pitches.filter (fun p => decide (p ≠ 0)))) := by
  have hlen : 0 < pitches.length := List.length_pos.mpr hne
  have hfc : pitches.filter (fun p => decide (0 < p))
      = pitches.filter (fun p => decide (p ≠ 0)) := by
    refine List.filter_congr ?_
    intro p hp
    rw [decide_eq_decide]
    exact ((hnn p hp).lt_iff_ne).trans ne_comm
  simp only [extract_parselmouth_features]
  refine ⟨⟨?_, ?_⟩, ?_, ?_⟩
  · positivity
  · rw [div_le_one (by exact_mod_cast hlen)]
    exact_mod_cast List.countP_le_length _
  · rw [div_eq_zero_iff]
    have hlen2 : ((pitches.length : ℚ) ≠ 0) := by
      exact_mod_cast Nat.pos_iff_ne_zero.mp hlen
    simp only [hlen2, or_false]
    rw [show ((pitches.countP (fun p => decide (0 < p)) : ℚ) = 0
        ↔ pitches.countP (fun p => decide (0 < p)) = 0) from by exact_mod_cast Iff.rfl]
    rw [List.countP_eq_zero]
    constructor
    · intro h p hp
      have h2 := h p hp
      simp only [decide_eq_true_eq] at h2
      exact le_antisymm (not_lt.mp h2) (hnn p hp)
    · intro h p hp
      simp only [decide_eq_true_eq, not_lt]
      exact le_of_eq (h p hp)
  · rw [hfc]
    by_cases hv : pitches.filter (fun p => decide (p ≠ 0)) = []
    · rw [if_neg (not_not_intro hv), if_pos hv]
    · rw [if_pos hv, if_neg hv]

/-- Witness for C7 at a concrete pitch track with voiced and unvoiced
frames. -/
theorem C7_parselmouth_features_witness :
    ([0, 100, 200, 0] : List ℚ) ≠ []
    ∧ (∀ p ∈ ([0, 100, 200, 0] : List ℚ), 0 ≤ p)
    ∧ ((0 ≤ (extract_parselmouth_features [0, 100, 200, 0]).2
        ∧ (extract_parselmouth_features [0, 100, 200, 0]).2 ≤ 1)
      ∧ ((extract_parselmouth_features [0, 100, 200, 0]).2 = 0
          ↔ ∀ p ∈ ([0, 100, 200, 0] : List ℚ), p = 0)
      ∧ (extract_parselmouth_features [0, 100, 200, 0]).1
          = (if ([0, 100, 200, 0] : List ℚ).filter (fun p => decide (p ≠ 0)) = []
             then 0
             else listMean (([0, 100, 200, 0] : List ℚ).filter
               (fun p => decide (p ≠ 0))))) :=
  ⟨by exact List.cons_ne_nil _ _, by norm_num,
    C7_parselmouth_features [0, 100, 200, 0] (by exact List.cons_ne_nil _ _)
      (by norm_num)⟩

/-- Sum of a mapped list as a Finset.range sum over the original entries. -/
theorem map_sum_eq_range_sum {A M : Type} [AddCommMonoid M] (f : A → M)
    (l : List A) (d : A) :
    (l.map f).sum = ∑ i ∈ Finset.range l.length, f (l.getD i d) := by
  rw [list_sum_eq_range_sum (l.map f), List.length_map]
  refine Finset.sum_congr rfl ?_
  intro i hi
  rw [Finset.mem_range] at hi
  rw [List.getD_eq_getElem _ _ (by simpa using hi), List.getD_eq_getElem _ _ hi]
  simp

/-- Claim C6: spectral flatness lies in (0, 1], and can equal 1 only when
the spectrum is perfectly flat, i.e. all epsilon-offset spectral magnitude
bins are equal.  (Spectral magnitudes |rfft| are nonnegative, and a
segment's spectrum has at least one bin.) -/
theorem C6_spectral_flatness_range (mag : List ℝ)
    (hne : mag ≠ []) (hnn : ∀ x ∈ mag, 0 ≤ x) :
    (0 < spectral_flatness mag ∧ spectral_flatness mag ≤ 1)
    ∧ (spectral_flatness mag = 1 →
        ∀ x ∈ mag, ∀ z ∈ mag, x + 1e-10 = z + 1e-10) := by
  have hn : 0 < mag.length := List.length_pos.mpr hne
  have hnR : (0 : ℝ) < (mag.length : ℝ) := by exact_mod_cast hn
  have hnne : ((mag.length : ℝ)) ≠ 0 := ne_of_gt hnR
  have heps : (0 : ℝ) < 1e-10 := by norm_num
  set n := mag.length with hndef
  have hy : ∀ i ∈ Finset.range n, (0 : ℝ) < mag.getD i 0 + 1e-10 := by
    intro i hi
    rw [Finset.mem_range] at hi
    have hmem : mag.getD i 0 ∈ mag := by
      rw [List.getD_eq_getElem _ _ hi]
      exact List.getElem_mem hi
    have h0 := hnn _ hmem
    linarith
  have hsf : spectral_flatness mag
      = Real.exp ((∑ i ∈ Finset.range n, Real.log (mag.getD i 0 + 1e-10)) / n)
        / ((∑ i ∈ Finset.range n, (mag.getD i 0 + 1e-10)) / n) := by
    simp only [spectral_flatness, listMean]
    rw [map_sum_eq_range_sum (fun x => Real.log (x + 1e-10)) mag 0,
      map_sum_eq_range_sum (fun x => x + 1e-10) mag 0]
    simp
  have hw1 : ∑ _i ∈ Finset.range n, ((n : ℝ))⁻¹ = 1 := by
    rw [Finset.sum_const, Finset.card_range, nsmul_eq_mul]
    exact mul_inv_cancel₀ hnne
  have e1 : ∑ i ∈ Finset.range n, ((n : ℝ))⁻¹ • Real.exp (Real.log (mag.getD i 0 + 1e-10))
      = (∑ i ∈ Finset.range n, (mag.getD i 0 + 1e-10)) / n := by
    rw [Finset.sum_congr rfl
      (fun i hi => by rw [smul_eq_mul, Real.exp_log (hy i hi)])]
    rw [← Finset.mul_sum, inv_mul_eq_div]
  have e2 : Real.exp (∑ i ∈ Finset.range n, ((n : ℝ))⁻¹ • Real.log (mag.getD i 0 + 1e-10))
      = Real.exp ((∑ i ∈ Finset.range n, Real.log (mag.getD i 0 + 1e-10)) / n) := by
    congr 1
    rw [Finset.sum_congr rfl (fun i _ => by rw [smul_eq_mul]), ← Finset.mul_sum,
      inv_mul_eq_div]
  have hAMpos : 0 < (∑ i ∈ Finset.range n, (mag.getD i 0 + 1e-10)) / n := by
    apply div_pos _ hnR
    exact Finset.sum_pos hy (Finset.nonempty_range_iff.mpr (Nat.pos_iff_ne_zero.mp hn))
  have hjensen := convexOn_exp.map_sum_le (t := Finset.range n)
      (w := fun _ => ((n : ℝ))⁻¹)
      (p := fun i => Real.log (mag.getD i 0 + 1e-10))
      (fun i _ => inv_nonneg.mpr (Nat.cast_nonneg n)) hw1
      (fun i _ => Set.mem_univ _)
  have hGM_le : Real.exp ((∑ i ∈ Finset.range n, Real.log (mag.getD i 0 + 1e-10)) / n)
      ≤ (∑ i ∈ Finset.range n, (mag.getD i 0 + 1e-10)) / n := by
    calc Real.exp ((∑ i ∈ Finset.range n, Real.log (mag.getD i 0 + 1e-10)) / n)
        = Real.exp (∑ i ∈ Finset.range n,
            ((n : ℝ))⁻¹ • Real.log (mag.getD i 0 + 1e-10)) := e2.symm
      _ ≤ ∑ i ∈ Finset.range n,
            ((n : ℝ))⁻¹ • Real.exp (Real.log (mag.getD i 0 + 1e-10)) := hjensen
      _ = (∑ i ∈ Finset.range n, (mag.getD i 0 + 1e-10)) / n := e1
  refine ⟨⟨?_, ?_⟩, ?_⟩
  · rw [hsf]
    exact div_pos (Real.exp_pos _) hAMpos
  · rw [hsf]
    exact (div_le_one hAMpos).mpr hGM_le
  · intro h1
    rw [hsf, div_eq_one_iff_eq (ne_of_gt hAMpos)] at h1
    have hsum_le : ∑ i ∈ Finset.range n,
          ((n : ℝ))⁻¹ • Real.exp (Real.log (mag.getD i 0 + 1e-10))
        ≤ Real.exp (∑ i ∈ Finset.range n,
            ((n : ℝ))⁻¹ • Real.log (mag.getD i 0 + 1e-10)) := by
      rw [e1, e2, ← h1]
    have hall := strictConvexOn_exp.eq_of_le_map_sum
      (fun i _ => inv_pos.mpr hnR) hw1 (fun i _ => Set.mem_univ _) hsum_le
    intro x hx z hz
    obtain ⟨j, hj, hjx⟩ := List.mem_iff_getElem.mp hx
    obtain ⟨k, hk, hkz⟩ := List.mem_iff_getElem.mp hz
    have hjk := hall (Finset.mem_range.mpr hj) (Finset.mem_range.mpr hk)
    have hyy := congrArg Real.exp hjk
    rw [Real.exp_log (hy j (Finset.mem_range.mpr hj)),
      Real.exp_log (hy k (Finset.mem_range.mpr hk))] at hyy
    rw [List.getD_eq_getElem _ _ hj, List.getD_eq_getElem _ _ hk, hjx, hkz] at hyy
    exact hyy

/-- Witness for C6 at a concrete two-bin magnitude spectrum. -/
theorem C6_spectral_flatness_range_witness :
    ([1, 2] : List ℝ) ≠ []
    ∧ (∀ x ∈ ([1, 2] : List ℝ), 0 ≤ x)
    ∧ ((0 < spectral_flatness [1, 2] ∧ spectral_flatness [1, 2] ≤ 1)
      ∧ (spectral_flatness [1, 2] = 1 →
          ∀ x ∈ ([1, 2] : List ℝ), ∀ z ∈ ([1, 2] : List ℝ),
            x + 1e-10 = z + 1e-10)) :=
  ⟨by exact List.cons_ne_nil _ _, by norm_num,
    C6_spectral_flatness_range [1, 2] (by exact List.cons_ne_nil _ _)
      (by norm_num)⟩

/-- Claim C5: with window size 1 the smoother is the identity. -/
theorem C5_smoother_identity (values : List ℚ) :
    smooth_feature values 1 = values := by
  apply List.ext_getElem
  · simp [smooth_feature]
  · intro i h1 h2
    have hmin : min values.length (i + 1 / 2 + 1) = i + 1 := by omega
    have hslice : (values.take (i + 1)).drop i = [values[i]] := by
      apply List.ext_getElem
      · rw [slice_length values i (i + 1) (by omega)]
        simp
      · intro k hk1 hk2
        rw [slice_length values i (i + 1) (by omega)] at hk1
        have hk0 : k = 0 := by omega
        subst hk0
        simp
    simp [smooth_feature, hmin, hslice, listMean]

end Vocadian
